import Mathlib

/-!
# Verification of `LinkedList` (src/Cpp/Containers/LinkedList.h)

Shallow embedding of the doubly-linked list container.  The C++ heap is
modelled as an association list from node addresses (`Nat`) to node records;
a null pointer is `none : Option Nat`; `new Node(val)` allocates at the
address `fresh`, which is then incremented, so addresses are never reused.
Every pointer dereference goes through `List.lookup`; a failed lookup (a
dangling or null dereference, undefined behaviour in C++) makes the
operation return `none`.  Field assignments (`node->next = ...`) become
`updNode`, which rewrites the single field of the addressed node, and values
are re-read from the current heap exactly where the C++ re-reads them.

`LinkedList::count` has C++ type `int`, modelled as `Int` (signed-overflow
is undefined behaviour and out of scope; every reachable state proved below
has `0 ≤ count`, so the `int` → `size_t` conversion performed by `size()` is
value-preserving there).
-/

structure Node (α : Type) where
  data : α
  next : Option Nat
  prev : Option Nat
deriving DecidableEq

structure LinkedList (α : Type) where
  heap  : List (Nat × Node α)
  head  : Option Nat
  tail  : Option Nat
  count : Int
  fresh : Nat
deriving DecidableEq

/-- The single error kind of the container: `std::runtime_error` thrown by
`front`/`back`/`removeNode` on an empty list ("EmptyContainer" in the spec). -/
inductive ListErr where
  | emptyContainer
deriving DecidableEq

namespace LinkedList

variable {α : Type}

/-- `LinkedList()` : head = tail = nullptr, count = 0; the heap starts empty. -/
def emptyList : LinkedList α := ⟨[], none, none, 0, 0⟩

/-- Write one node's fields at address `a` (a C++ field assignment). -/
def updNode (heap : List (Nat × Node α)) (a : Nat) (f : Node α → Node α) :
    List (Nat × Node α) :=
  heap.map fun p => if p.1 = a then (p.1, f p.2) else p

/-- `size()` returns `count` (converted to `size_t`; identity on the
non-negative counts of reachable states). -/
def size (l : LinkedList α) : Int := l.count

/-- `empty()` returns `head == nullptr`. -/
def empty (l : LinkedList α) : Bool := l.head == none

/-- `LinkedList::addAfter(Node* node, const TValue& val)`, transcribed
statement by statement (allocation, the two branches on `node` and on
`newNode->next`, and the final `count++`). -/
def addAfter (l : LinkedList α) (node : Option Nat) (val : α) :
    Option (LinkedList α) :=
  let a := l.fresh
  let heap0 := l.heap ++ [(a, ⟨val, none, none⟩)]
  match node with
  | none =>
      -- adding into empty list: head = newNode; tail = newNode
      some { l with heap := heap0, head := some a, tail := some a,
                    count := l.count + 1, fresh := a + 1 }
  | some b =>
      match heap0.lookup b with
      | none => none
      | some bn =>
          -- newNode->prev = node; newNode->next = node->next
          let heap1 := updNode heap0 a fun n => ⟨n.data, bn.next, some b⟩
          -- node->next = newNode
          let heap2 := updNode heap1 b fun n => ⟨n.data, some a, n.prev⟩
          match heap2.lookup a with
          | none => none
          | some an =>
              match an.next with
              | none =>
                  -- new tail (i.e. node was the tail)
                  some { l with heap := heap2, tail := some a,
                                count := l.count + 1, fresh := a + 1 }
              | some c =>
                  -- node was not the tail: newNode->next->prev = newNode
                  match heap2.lookup c with
                  | none => none
                  | some _ =>
                      let heap3 := updNode heap2 c fun n => ⟨n.data, n.next, some a⟩
                      some { l with heap := heap3,
                                    count := l.count + 1, fresh := a + 1 }

/-- `LinkedList::addBefore(Node* node, const TValue& val)`, transcribed the
same way (mirror image of `addAfter`). -/
def addBefore (l : LinkedList α) (node : Option Nat) (val : α) :
    Option (LinkedList α) :=
  let a := l.fresh
  let heap0 := l.heap ++ [(a, ⟨val, none, none⟩)]
  match node with
  | none =>
      -- empty list
      some { l with heap := heap0, head := some a, tail := some a,
                    count := l.count + 1, fresh := a + 1 }
  | some b =>
      match heap0.lookup b with
      | none => none
      | some bn =>
          -- newNode->next = node; newNode->prev = node->prev
          let heap1 := updNode heap0 a fun n => ⟨n.data, some b, bn.prev⟩
          -- node->prev = newNode
          let heap2 := updNode heap1 b fun n => ⟨n.data, n.next, some a⟩
          match heap2.lookup a with
          | none => none
          | some an =>
              match an.prev with
              | none =>
                  -- new head (node was the head)
                  some { l with heap := heap2, head := some a,
                                count := l.count + 1, fresh := a + 1 }
              | some c =>
                  -- node was not the head: newNode->prev->next = newNode
                  match heap2.lookup c with
                  | none => none
                  | some _ =>
                      let heap3 := updNode heap2 c fun n => ⟨n.data, some a, n.prev⟩
                      some { l with heap := heap3,
                                    count := l.count + 1, fresh := a + 1 }

/-- `LinkedList::removeNode(Node* node)`.  The throw happens before any
mutation, and carries the (unchanged) list; the success case returns the
removed value and the new list.  Before `delete node` the code sets
`node->next = nullptr`, so only the single node is freed (modelled by
filtering its address out of the heap). -/
def removeNode (l : LinkedList α) (node : Option Nat) :
    Option (Except (ListErr × LinkedList α) (α × LinkedList α)) :=
  if l.head = none then some (.error (.emptyContainer, l)) else
  match node with
  | none => none
  | some a =>
      match l.heap.lookup a with
      | none => none
      | some n =>
          let val := n.data
          -- if (node->next != nullptr) node->next->prev = node->prev
          -- else tail = node->prev
          let step1 : Option (List (Nat × Node α) × Option Nat) :=
            match n.next with
            | some c =>
                match l.heap.lookup c with
                | none => none
                | some _ => some (updNode l.heap c (fun m => ⟨m.data, m.next, n.prev⟩), l.tail)
            | none => some (l.heap, n.prev)
          match step1 with
          | none => none
          | some (heap1, tail1) =>
              match heap1.lookup a with
              | none => none
              | some n1 =>
                  -- if (node->prev != nullptr) node->prev->next = node->next
                  -- else head = node->next
                  let step2 : Option (List (Nat × Node α) × Option Nat) :=
                    match n1.prev with
                    | some p =>
                        match heap1.lookup p with
                        | none => none
                        | some _ => some (updNode heap1 p (fun m => ⟨m.data, n1.next, m.prev⟩), l.head)
                    | none => some (heap1, n1.next)
                  match step2 with
                  | none => none
                  | some (heap2, head2) =>
                      let heap3 := heap2.filter fun p => p.1 != a
                      some (.ok (val, { l with heap := heap3, head := head2,
                                               tail := tail1, count := l.count - 1 }))

/-- `push_front(val)`: `addBefore(head, val)`. -/
def push_front (l : LinkedList α) (val : α) : Option (LinkedList α) :=
  addBefore l l.head val

/-- `push_back(val)`: `addAfter(tail, val)`. -/
def push_back (l : LinkedList α) (val : α) : Option (LinkedList α) :=
  addAfter l l.tail val

/-- `pop_front()`: `removeNode(head)`. -/
def pop_front (l : LinkedList α) :
    Option (Except (ListErr × LinkedList α) (α × LinkedList α)) :=
  removeNode l l.head

/-- `pop_back()`: `removeNode(tail)`. -/
def pop_back (l : LinkedList α) :
    Option (Except (ListErr × LinkedList α) (α × LinkedList α)) :=
  removeNode l l.tail

/-- `front()`: throws if `head == nullptr`, else returns `head->data`. -/
def front (l : LinkedList α) : Option (Except (ListErr × LinkedList α) α) :=
  match l.head with
  | none => some (.error (.emptyContainer, l))
  | some a =>
      match l.heap.lookup a with
      | none => none
      | some n => some (.ok n.data)

/-- `back()`: throws if `tail == nullptr`, else returns `tail->data`. -/
def back (l : LinkedList α) : Option (Except (ListErr × LinkedList α) α) :=
  match l.tail with
  | none => some (.error (.emptyContainer, l))
  | some a =>
      match l.heap.lookup a with
      | none => none
      | some n => some (.ok n.data)

/-- The addresses freed by `delete cur` through the recursive node
destructor `Node::~Node() { delete next; }`: one nested destructor
invocation per list element.  The fuel argument only serves termination; it
is always instantiated above the chain length. -/
def destroyChain (heap : List (Nat × Node α)) : Option Nat → Nat → List Nat
  | none, _ => []
  | some _, 0 => []
  | some a, fuel + 1 =>
      a :: (match heap.lookup a with
            | none => []
            | some n => destroyChain heap n.next fuel)

/-- `clear()`: `delete head` (which frees the whole chain through the
recursive `Node` destructor), then `head = tail = nullptr; count = 0`. -/
def clear (l : LinkedList α) : LinkedList α :=
  let ds := destroyChain l.heap l.head l.heap.length
  { l with heap := l.heap.filter fun p => !(ds.contains p.1),
           head := none, tail := none, count := 0 }

/-- The number of nested `Node::~Node` destructor frames entered by
`clear()` (resp. `~LinkedList()`, which just calls `clear()`): the length of
the chain freed by `delete head`. -/
def clearCallDepth (l : LinkedList α) : Nat :=
  (destroyChain l.heap l.head l.heap.length).length

/-- `begin()`: `iterator(head)`.  An iterator is the address it holds
(`none` = the null/sentinel iterator). -/
def beginIt (l : LinkedList α) : Option Nat := l.head

/-- `end()`: `iterator(nullptr)`, the sentinel. -/
def endIt (_ : LinkedList α) : Option Nat := none

/-- `rbegin()`: `iterator(tail)`. -/
def rbeginIt (l : LinkedList α) : Option Nat := l.tail

/-- `rend()`: `iterator(nullptr)`. -/
def rendIt (_ : LinkedList α) : Option Nat := none

/-- Modelled from the spec: `LinkedListIterator.h` is not under `src/`
(only its inclusion and the factory functions `begin`/`end`/`rbegin`/`rend`
are).  Per the spec, two iterators compare equal iff both are the sentinel
or both address the same node. -/
def iterEq (i j : Option Nat) : Bool := i == j

/-- Modelled from the spec: forward iteration from an iterator to the
sentinel — repeatedly dereference the addressed node and step to `next`
(the iterator increment of `LinkedListIterator.h`, which is not under
`src/`).  Fuel-bounded; returns `none` on a dangling address or fuel
exhaustion. -/
def traverseFwd (heap : List (Nat × Node α)) : Option Nat → Nat → Option (List α)
  | none, _ => some []
  | some _, 0 => none
  | some a, fuel + 1 =>
      match heap.lookup a with
      | none => none
      | some n => (traverseFwd heap n.next fuel).map (n.data :: ·)

/-- Modelled from the spec: backward iteration (the iterator decrement of
`LinkedListIterator.h`, not under `src/`) — dereference, then step to
`prev`, until the sentinel. -/
def traverseBwd (heap : List (Nat × Node α)) : Option Nat → Nat → Option (List α)
  | none, _ => some []
  | some _, 0 => none
  | some a, fuel + 1 =>
      match heap.lookup a with
      | none => none
      | some n => (traverseBwd heap n.prev fuel).map (n.data :: ·)

/-- The value sequence seen by iterating from `begin()` to `end()`. -/
def listAbsFwd (l : LinkedList α) : Option (List α) :=
  traverseFwd l.heap (beginIt l) l.heap.length

/-- The value sequence seen by iterating from `rbegin()` to `rend()`. -/
def listAbsBwd (l : LinkedList α) : Option (List α) :=
  traverseBwd l.heap (rbeginIt l) l.heap.length

/-- The addresses visited walking forward from a pointer via `next`,
recording each visited node, with bounded fuel (`none` on fuel exhaustion
or a dangling address). -/
def walkNext (heap : List (Nat × Node α)) : Option Nat → Nat → Option (List Nat)
  | none, _ => some []
  | some _, 0 => none
  | some a, fuel + 1 =>
      match heap.lookup a with
      | none => none
      | some n => (walkNext heap n.next fuel).map (a :: ·)

/-- The head of an address run, or the given fallback pointer when the run
is empty. -/
def headOr (as : List Nat) (nx : Option Nat) : Option Nat :=
  match as with
  | [] => nx
  | b :: _ => some b

/-- The pointer that precedes the position right after an address run whose
first node's `prev` is `pr`: the run's last address, or `pr` if it is empty. -/
def endPrev (pr : Option Nat) (as : List Nat) : Option Nat :=
  match as.getLast? with
  | none => pr
  | some b => some b

/-- `chainB heap pr as nx`: the addresses `as` form a well-linked doubly
linked chain segment in `heap` — the first node's `prev` is `pr`, each
node's `next` is the following address (the last one's is `nx`), and each
node's `prev` is the preceding address. -/
def chainB (heap : List (Nat × Node α)) : Option Nat → List Nat → Option Nat → Bool
  | _, [], _ => true
  | pr, a :: rest, nx =>
      match heap.lookup a with
      | none => false
      | some n => n.prev == pr && n.next == headOr rest nx && chainB heap (some a) rest nx

/-- The stored values at a run of addresses (`none` marks a dangling one). -/
def dataMap (heap : List (Nat × Node α)) (as : List Nat) : List (Option α) :=
  as.map fun a => (heap.lookup a).map Node.data

/-- `reprWith l as xs`: the list `l` is a well-formed doubly-linked list
whose chain visits the distinct addresses `as` (head first, tail last) and
stores the values `xs`, with every heap address below the allocation
counter. -/
def reprWith (l : LinkedList α) (as : List Nat) (xs : List α) : Prop :=
  chainB l.heap none as none = true ∧
  l.head = as.head? ∧
  l.tail = as.getLast? ∧
  l.count = (as.length : Int) ∧
  as.Nodup ∧
  (∀ p ∈ l.heap, p.1 < l.fresh) ∧
  dataMap l.heap as = xs.map some

instance (l : LinkedList α) (as : List Nat) (xs : List α) [DecidableEq α] :
    Decidable (reprWith l as xs) := by
  unfold reprWith; infer_instance

/-- A well-formed list: some address run and value sequence represent it. -/
def WFR (l : LinkedList α) : Prop := ∃ as xs, reprWith l as xs

/-- The structural invariants of the list, as the spec states them:
`count == 0` iff `head` is null iff `tail` is null; a single node is both
head and tail; walking forward from `head` via `next` visits exactly `count`
nodes, reaching `tail` last with `tail.next` null; and the `prev`/`next`
links of the visited nodes are mutually consistent. -/
def Invariant (l : LinkedList α) : Prop :=
  (l.count = 0 ↔ l.head = none) ∧
  (l.head = none ↔ l.tail = none) ∧
  (l.count = 1 → l.head = l.tail) ∧
  (∃ as : List Nat,
    walkNext l.heap l.head l.count.toNat = some as ∧
    (as.length : Int) = l.count ∧
    l.tail = as.getLast? ∧
    (∀ t, l.tail = some t → ∀ n, l.heap.lookup t = some n → n.next = none) ∧
    (∀ a ∈ as, ∀ n, l.heap.lookup a = some n →
      (∀ b, n.next = some b → ∃ m, l.heap.lookup b = some m ∧ m.prev = some a) ∧
      (∀ b, n.prev = some b → ∃ m, l.heap.lookup b = some m ∧ m.next = some a)))

/-- One public mutating operation of the container. -/
inductive Op (α : Type) where
  | pushF (v : α)
  | pushB (v : α)
  | popF
  | popB
  | clearOp
deriving DecidableEq

/-- Run one operation through the public API.  A pop on an empty list throws
`EmptyContainer` and leaves the state unchanged (the caller recovers);
`none` marks undefined behaviour, which reachable states never hit. -/
def applyOp (l : LinkedList α) : Op α → Option (LinkedList α)
  | .pushF v => push_front l v
  | .pushB v => push_back l v
  | .popF =>
      match pop_front l with
      | some (.ok (_, l')) => some l'
      | some (.error (_, l')) => some l'
      | none => none
  | .popB =>
      match pop_back l with
      | some (.ok (_, l')) => some l'
      | some (.error (_, l')) => some l'
      | none => none
  | .clearOp => some (clear l)

/-- Run a sequence of operations through the public API. -/
def runOps (l : LinkedList α) : List (Op α) → Option (LinkedList α)
  | [] => some l
  | op :: ops =>
      match applyOp l op with
      | none => none
      | some l' => runOps l' ops

/-- Whether an operation is a push. -/
def isPush : Op α → Bool
  | .pushF _ => true
  | .pushB _ => true
  | _ => false

/-- The value sequence in push order: `push_front` prepends at the front,
`push_back` appends at the end; non-push operations are ignored. -/
def pushModelFrom (xs : List α) : List (Op α) → List α
  | [] => xs
  | .pushF v :: ops => pushModelFrom (v :: xs) ops
  | .pushB v :: ops => pushModelFrom (xs ++ [v]) ops
  | _ :: ops => pushModelFrom xs ops

/-- Abstract list semantics of the four push/pop operations, where a pop is
only permitted on a non-empty list (`none` marks a violated precondition;
`clear` is not among the four operations). -/
def modelRun4 (xs : List α) : List (Op α) → Option (List α)
  | [] => some xs
  | .pushF v :: ops => modelRun4 (v :: xs) ops
  | .pushB v :: ops => modelRun4 (xs ++ [v]) ops
  | .popF :: ops =>
      match xs with
      | [] => none
      | _ :: xs' => modelRun4 xs' ops
  | .popB :: ops =>
      match xs with
      | [] => none
      | _ :: _ => modelRun4 xs.dropLast ops
  | .clearOp :: _ => none

/-- The number of pushes in a sequence. -/
def pushCount : List (Op α) → Int
  | [] => 0
  | op :: ops => (if isPush op then 1 else 0) + pushCount ops

/-- The number of pops in a sequence. -/
def popCount : List (Op α) → Int
  | [] => 0
  | .popF :: ops => 1 + popCount ops
  | .popB :: ops => 1 + popCount ops
  | _ :: ops => popCount ops

end LinkedList

namespace LinkedList

variable {α : Type}

/-! ## Association-list heap lemmas -/

theorem lookup_mem {heap : List (Nat × Node α)} {a : Nat} {n : Node α}
    (h : heap.lookup a = some n) : (a, n) ∈ heap := by
  induction heap with
  | nil => simp at h
  | cons p t ih =>
      obtain ⟨k, v⟩ := p
      rw [List.lookup_cons] at h
      by_cases hk : a = k
      · subst hk
        rw [beq_self_eq_true] at h
        obtain rfl : v = n := by simpa using h
        exact List.mem_cons_self _ _
      · rw [beq_eq_false_iff_ne.2 hk] at h
        exact List.mem_cons_of_mem _ (ih h)

theorem lookup_none_of_bound {heap : List (Nat × Node α)} {c : Nat}
    (h : ∀ p ∈ heap, p.1 < c) : heap.lookup c = none := by
  cases hl : heap.lookup c with
  | none => rfl
  | some n => exact absurd (h _ (lookup_mem hl)) (lt_irrefl c)

theorem lookup_append_left {h₁ h₂ : List (Nat × Node α)} {a : Nat} {n : Node α}
    (h : h₁.lookup a = some n) : (h₁ ++ h₂).lookup a = some n := by
  induction h₁ with
  | nil => simp at h
  | cons p t ih =>
      obtain ⟨k, v⟩ := p
      rw [List.lookup_cons] at h
      rw [List.cons_append, List.lookup_cons]
      cases hpa : (a == k) with
      | true => rw [hpa] at h; exact h
      | false => rw [hpa] at h; exact ih h

theorem lookup_append_right {h₁ h₂ : List (Nat × Node α)} {a : Nat}
    (h : h₁.lookup a = none) : (h₁ ++ h₂).lookup a = h₂.lookup a := by
  induction h₁ with
  | nil => simp
  | cons p t ih =>
      obtain ⟨k, v⟩ := p
      rw [List.lookup_cons] at h
      rw [List.cons_append, List.lookup_cons]
      cases hpa : (a == k) with
      | true => rw [hpa] at h; exact absurd h (by simp)
      | false => rw [hpa] at h; exact ih h

theorem lookup_updNode_self {heap : List (Nat × Node α)} {a : Nat} (f : Node α → Node α) :
    (updNode heap a f).lookup a = (heap.lookup a).map f := by
  induction heap with
  | nil => simp [updNode]
  | cons p t ih =>
      obtain ⟨k, v⟩ := p
      simp only [updNode, List.map_cons]
      by_cases hk : k = a
      · subst hk
        rw [if_pos rfl, List.lookup_cons, List.lookup_cons, beq_self_eq_true]
        rfl
      · rw [if_neg hk, List.lookup_cons, List.lookup_cons,
          beq_eq_false_iff_ne.2 (fun hh => hk hh.symm)]
        exact ih

theorem lookup_updNode_ne {heap : List (Nat × Node α)} {a b : Nat} (f : Node α → Node α)
    (h : b ≠ a) : (updNode heap a f).lookup b = heap.lookup b := by
  induction heap with
  | nil => simp [updNode]
  | cons p t ih =>
      obtain ⟨k, v⟩ := p
      simp only [updNode, List.map_cons]
      by_cases hk : k = a
      · subst hk
        rw [if_pos rfl, List.lookup_cons, List.lookup_cons, beq_eq_false_iff_ne.2 h]
        exact ih
      · rw [if_neg hk, List.lookup_cons, List.lookup_cons]
        cases hbp : (b == k) with
        | true => rfl
        | false => exact ih

theorem lookup_filterKey_ne {heap : List (Nat × Node α)} {r a : Nat} (h : a ≠ r) :
    (heap.filter fun p => p.1 != r).lookup a = heap.lookup a := by
  induction heap with
  | nil => rfl
  | cons p t ih =>
      obtain ⟨k, v⟩ := p
      rw [List.filter_cons]
      by_cases hkr : k = r
      · subst hkr
        simp only [bne_self_eq_false, Bool.false_eq_true, if_neg, ite_false]
        rw [List.lookup_cons, beq_eq_false_iff_ne.2 (show a ≠ k from h)]
        exact ih
      · have : ((k, v).1 != r) = true := by simpa using hkr
        rw [if_pos this, List.lookup_cons, List.lookup_cons]
        cases hap : (a == k) with
        | true => rfl
        | false => exact ih

/-! ## Freshness-bound preservation -/

theorem bound_append {heap : List (Nat × Node α)} {c : Nat} {n : Node α}
    (h : ∀ p ∈ heap, p.1 < c) :
    ∀ p ∈ heap ++ [(c, n)], p.1 < c + 1 := by
  intro p hp
  rcases List.mem_append.1 hp with hp | hp
  · exact Nat.lt_succ_of_lt (h _ hp)
  · rcases List.mem_singleton.1 hp with rfl
    exact Nat.lt_succ_self c

theorem bound_updNode {heap : List (Nat × Node α)} {a c : Nat} {f : Node α → Node α}
    (h : ∀ p ∈ heap, p.1 < c) :
    ∀ p ∈ updNode heap a f, p.1 < c := by
  intro p hp
  rcases List.mem_map.1 hp with ⟨q, hq, rfl⟩
  by_cases hqa : q.1 = a
  · rw [if_pos hqa]
    exact h q hq
  · rw [if_neg hqa]
    exact h q hq

theorem bound_filter {heap : List (Nat × Node α)} {c : Nat} {q : Nat × Node α → Bool}
    (h : ∀ p ∈ heap, p.1 < c) :
    ∀ p ∈ heap.filter q, p.1 < c :=
  fun p hp => h p (List.mem_of_mem_filter hp)

end LinkedList

namespace LinkedList

variable {α : Type}

/-! ## Chain decomposition lemmas -/

theorem headOr_none (as : List Nat) : headOr as none = as.head? := by
  cases as <;> rfl

theorem headOr_append_singleton (as : List Nat) (t : Nat) (nx : Option Nat) :
    headOr (as ++ [t]) nx = headOr as (some t) := by
  cases as <;> rfl

theorem endPrev_none (as : List Nat) : endPrev none as = as.getLast? := by
  unfold endPrev
  cases h : as.getLast? <;> rfl

theorem endPrev_cons (pr : Option Nat) (a : Nat) (as : List Nat) :
    endPrev pr (a :: as) = endPrev (some a) as := by
  unfold endPrev
  rw [List.getLast?_cons]
  cases h : as.getLast? <;> rfl

theorem chainB_cons_eq (heap : List (Nat × Node α)) (pr : Option Nat) (a : Nat)
    (rest : List Nat) (nx : Option Nat) :
    chainB heap pr (a :: rest) nx =
      match heap.lookup a with
      | none => false
      | some n => n.prev == pr && n.next == headOr rest nx &&
          chainB heap (some a) rest nx := rfl

theorem chainB_cons {heap : List (Nat × Node α)} {pr : Option Nat} {a : Nat}
    {rest : List Nat} {nx : Option Nat} :
    chainB heap pr (a :: rest) nx = true ↔
      ∃ n, heap.lookup a = some n ∧ n.prev = pr ∧ n.next = headOr rest nx ∧
        chainB heap (some a) rest nx = true := by
  rw [chainB_cons_eq]
  cases h : heap.lookup a with
  | none => simp
  | some n => simp [Bool.and_assoc, and_assoc]

theorem chainB_congr {heap₁ heap₂ : List (Nat × Node α)} {as : List Nat} :
    ∀ {pr nx : Option Nat}, (∀ a ∈ as, heap₂.lookup a = heap₁.lookup a) →
      chainB heap₂ pr as nx = chainB heap₁ pr as nx := by
  induction as with
  | nil => intro pr nx _; rfl
  | cons a rest ih =>
      intro pr nx h
      have ha := h a (List.mem_cons_self _ _)
      rw [chainB_cons_eq, chainB_cons_eq, ha]
      cases hl : heap₁.lookup a with
      | none => rfl
      | some n => rw [ih fun b hb => h b (List.mem_cons_of_mem _ hb)]

theorem chainB_lookup {heap : List (Nat × Node α)} {as : List Nat} :
    ∀ {pr nx : Option Nat}, chainB heap pr as nx = true →
      ∀ a ∈ as, ∃ n, heap.lookup a = some n := by
  induction as with
  | nil => intro _ _ _ a ha; simp at ha
  | cons b rest ih =>
      intro pr nx h a ha
      rcases chainB_cons.1 h with ⟨n, hn, _, _, hrest⟩
      rcases List.mem_cons.1 ha with rfl | ha
      · exact ⟨n, hn⟩
      · exact ih hrest a ha

theorem chainB_snoc {heap : List (Nat × Node α)} {as : List Nat} {t : Nat} :
    ∀ {pr nx : Option Nat},
      chainB heap pr (as ++ [t]) nx = true ↔
        chainB heap pr as (some t) = true ∧
        ∃ n, heap.lookup t = some n ∧ n.prev = endPrev pr as ∧ n.next = nx := by
  induction as with
  | nil =>
      intro pr nx
      rw [List.nil_append]
      constructor
      · intro h
        rcases chainB_cons.1 h with ⟨n, hn, hp, hx, -⟩
        exact ⟨rfl, n, hn, hp, hx⟩
      · rintro ⟨-, n, hn, hp, hx⟩
        exact chainB_cons.2 ⟨n, hn, hp, hx, rfl⟩
  | cons b rest ih =>
      intro pr nx
      rw [List.cons_append, chainB_cons, chainB_cons, ih,
        headOr_append_singleton, endPrev_cons]
      tauto

theorem dataMap_append (heap : List (Nat × Node α)) (as bs : List Nat) :
    dataMap heap (as ++ bs) = dataMap heap as ++ dataMap heap bs :=
  List.map_append _ _ _

theorem dataMap_congr {heap₁ heap₂ : List (Nat × Node α)} {as : List Nat}
    (h : ∀ a ∈ as, (heap₂.lookup a).map Node.data = (heap₁.lookup a).map Node.data) :
    dataMap heap₂ as = dataMap heap₁ as :=
  List.map_congr_left fun a ha => h a ha

theorem repr_mem_lt {l : LinkedList α} {as : List Nat} {xs : List α}
    (h : reprWith l as xs) : ∀ a ∈ as, a < l.fresh := by
  intro a ha
  rcases chainB_lookup h.1 a ha with ⟨n, hn⟩
  exact h.2.2.2.2.2.1 _ (lookup_mem hn)

end LinkedList

namespace LinkedList

variable {α : Type}

/-! ## Representation lemmas for the operations -/

theorem lookup_new {heap : List (Nat × Node α)} {c : Nat} (n : Node α)
    (h : ∀ p ∈ heap, p.1 < c) :
    (heap ++ [(c, n)]).lookup c = some n := by
  rw [lookup_append_right (lookup_none_of_bound h)]
  simp [List.lookup_cons]

theorem push_front_repr {l : LinkedList α} {as : List Nat} {xs : List α}
    (h : reprWith l as xs) (v : α) :
    ∃ l', push_front l v = some l' ∧ reprWith l' (l.fresh :: as) (v :: xs) := by
  obtain ⟨hch, hhd, htl, hct, hnd, hfr, hdm⟩ := h
  cases as with
  | nil =>
      have hhd' : l.head = none := by simpa using hhd
      have hct' : l.count = 0 := by simpa using hct
      obtain rfl : xs = [] := by
        have h2 := hdm.symm
        simp only [dataMap, List.map_nil] at h2
        exact List.map_eq_nil_iff.1 h2
      refine ⟨⟨l.heap ++ [(l.fresh, ⟨v, none, none⟩)], some l.fresh, some l.fresh,
              l.count + 1, l.fresh + 1⟩, ?_, ?_, ?_, ?_, ?_, ?_, ?_, ?_⟩
      · show addBefore l l.head v = _
        rw [hhd']
        rfl
      · exact chainB_cons.2 ⟨⟨v, none, none⟩, lookup_new _ hfr, rfl, rfl, rfl⟩
      · rfl
      · rfl
      · rw [hct']; rfl
      · simp
      · exact bound_append hfr
      · simp [dataMap, lookup_new _ hfr]
  | cons a rest =>
      have hhd' : l.head = some a := by simpa using hhd
      obtain ⟨n, hna, hprev, hnext, hrest⟩ := chainB_cons.1 hch
      have hmem_lt : ∀ b ∈ (a :: rest), b < l.fresh := by
        intro b hb
        rcases chainB_lookup hch b hb with ⟨m, hm⟩
        exact hfr _ (lookup_mem hm)
      have haf : a < l.fresh := hmem_lt a (List.mem_cons_self _ _)
      have h0a : (l.heap ++ [(l.fresh, (⟨v, none, none⟩ : Node α))]).lookup a = some n :=
        lookup_append_left hna
      have h2c : (updNode (updNode (l.heap ++ [(l.fresh, (⟨v, none, none⟩ : Node α))])
          l.fresh fun m => ⟨m.data, some a, none⟩) a
          fun m => ⟨m.data, m.next, some l.fresh⟩).lookup l.fresh
          = some ⟨v, some a, none⟩ := by
        rw [lookup_updNode_ne _ (ne_of_gt haf), lookup_updNode_self, lookup_new _ hfr]
        rfl
      have h2a : (updNode (updNode (l.heap ++ [(l.fresh, (⟨v, none, none⟩ : Node α))])
          l.fresh fun m => ⟨m.data, some a, none⟩) a
          fun m => ⟨m.data, m.next, some l.fresh⟩).lookup a
          = some ⟨n.data, n.next, some l.fresh⟩ := by
        rw [lookup_updNode_self, lookup_updNode_ne _ (ne_of_lt haf), h0a]
        rfl
      have hcongr : ∀ b ∈ rest,
          (updNode (updNode (l.heap ++ [(l.fresh, (⟨v, none, none⟩ : Node α))])
            l.fresh fun m => ⟨m.data, some a, none⟩) a
            fun m => ⟨m.data, m.next, some l.fresh⟩).lookup b = l.heap.lookup b := by
        intro b hb
        have hbne_a : b ≠ a := by
          intro hba
          exact (List.nodup_cons.1 hnd).1 (hba ▸ hb)
        have hbf : b < l.fresh := hmem_lt b (List.mem_cons_of_mem _ hb)
        rcases chainB_lookup hrest b hb with ⟨m, hm⟩
        rw [lookup_updNode_ne _ hbne_a, lookup_updNode_ne _ (ne_of_lt hbf),
          lookup_append_left hm, hm]
      refine ⟨⟨updNode (updNode (l.heap ++ [(l.fresh, ⟨v, none, none⟩)])
          l.fresh fun m => ⟨m.data, some a, none⟩) a
          fun m => ⟨m.data, m.next, some l.fresh⟩, some l.fresh, l.tail,
          l.count + 1, l.fresh + 1⟩, ?_, ?_, ?_, ?_, ?_, ?_, ?_, ?_⟩
      · show addBefore l l.head v = _
        rw [hhd']
        simp only [addBefore, hprev, h0a, h2c]
      · refine chainB_cons.2 ⟨⟨v, some a, none⟩, h2c, rfl, rfl, ?_⟩
        refine chainB_cons.2 ⟨⟨n.data, n.next, some l.fresh⟩, h2a, rfl, hnext, ?_⟩
        rw [chainB_congr hcongr]
        exact hrest
      · rfl
      · rw [List.getLast?_cons_cons]
        exact htl
      · rw [hct]
        push_cast [List.length_cons]
        ring
      · refine List.nodup_cons.2 ⟨?_, hnd⟩
        intro hmem
        exact absurd (hmem_lt _ hmem) (lt_irrefl _)
      · show ∀ p ∈ updNode (updNode (l.heap ++ [(l.fresh, (⟨v, none, none⟩ : Node α))])
            l.fresh fun m => ⟨m.data, some a, none⟩) a
            fun m => ⟨m.data, m.next, some l.fresh⟩, p.1 < l.fresh + 1
        exact bound_updNode (bound_updNode (bound_append hfr))
      · have hdata : dataMap (updNode (updNode (l.heap ++ [(l.fresh, (⟨v, none, none⟩ : Node α))])
            l.fresh fun m => ⟨m.data, some a, none⟩) a
            fun m => ⟨m.data, m.next, some l.fresh⟩) (a :: rest) = dataMap l.heap (a :: rest) := by
          refine dataMap_congr ?_
          intro b hb
          rcases List.mem_cons.1 hb with rfl | hb
          · rw [h2a, hna]
            rfl
          · rw [hcongr b hb]
        have key : dataMap (updNode (updNode (l.heap ++ [(l.fresh, (⟨v, none, none⟩ : Node α))])
            l.fresh fun m => ⟨m.data, some a, none⟩) a
            fun m => ⟨m.data, m.next, some l.fresh⟩) (l.fresh :: a :: rest)
            = ((some ⟨v, some a, none⟩ : Option (Node α)).map Node.data) ::
              dataMap (updNode (updNode (l.heap ++ [(l.fresh, (⟨v, none, none⟩ : Node α))])
                l.fresh fun m => ⟨m.data, some a, none⟩) a
                fun m => ⟨m.data, m.next, some l.fresh⟩) (a :: rest) := by
          simp only [dataMap, List.map_cons, h2c]
        show dataMap _ (l.fresh :: a :: rest) = _
        rw [key, hdata, hdm]
        rfl

theorem head?_append_singleton {as : List Nat} {c : Nat} (h : as ≠ []) :
    (as ++ [c]).head? = as.head? := by
  cases as with
  | nil => exact absurd rfl h
  | cons a rest => rfl

theorem push_back_repr {l : LinkedList α} {as : List Nat} {xs : List α}
    (h : reprWith l as xs) (v : α) :
    ∃ l', push_back l v = some l' ∧ reprWith l' (as ++ [l.fresh]) (xs ++ [v]) := by
  obtain ⟨hch, hhd, htl, hct, hnd, hfr, hdm⟩ := h
  obtain rfl | ⟨as₀, t, rfl⟩ := as.eq_nil_or_concat
  · have htl' : l.tail = none := by simpa using htl
    have hct' : l.count = 0 := by simpa using hct
    obtain rfl : xs = [] := by
      have h2 := hdm.symm
      simp only [dataMap, List.map_nil] at h2
      exact List.map_eq_nil_iff.1 h2
    refine ⟨⟨l.heap ++ [(l.fresh, ⟨v, none, none⟩)], some l.fresh, some l.fresh,
            l.count + 1, l.fresh + 1⟩, ?_, ?_, ?_, ?_, ?_, ?_, ?_, ?_⟩
    · show addAfter l l.tail v = _
      rw [htl']
      rfl
    · exact chainB_cons.2 ⟨⟨v, none, none⟩, lookup_new _ hfr, rfl, rfl, rfl⟩
    · rfl
    · rfl
    · rw [hct']; rfl
    · simp
    · exact bound_append hfr
    · simp [dataMap, lookup_new _ hfr]
  · simp only [List.concat_eq_append] at hch hhd htl hct hnd hdm ⊢
    have htl' : l.tail = some t := by rw [htl, List.getLast?_concat]
    obtain ⟨hch₀, tn, htn, htn_prev, htn_next⟩ := chainB_snoc.1 hch
    have hmem_lt : ∀ b ∈ as₀ ++ [t], b < l.fresh := by
      intro b hb
      rcases chainB_lookup hch b hb with ⟨m, hm⟩
      exact hfr _ (lookup_mem hm)
    have htf : t < l.fresh := hmem_lt t (by simp)
    have hdis : as₀.Disjoint [t] := List.disjoint_of_nodup_append hnd
    have h0t : (l.heap ++ [(l.fresh, (⟨v, none, none⟩ : Node α))]).lookup t = some tn :=
      lookup_append_left htn
    have h2new : (updNode (updNode (l.heap ++ [(l.fresh, (⟨v, none, none⟩ : Node α))])
        l.fresh fun m => ⟨m.data, none, some t⟩) t
        fun m => ⟨m.data, some l.fresh, m.prev⟩).lookup l.fresh
        = some ⟨v, none, some t⟩ := by
      rw [lookup_updNode_ne _ (ne_of_gt htf), lookup_updNode_self, lookup_new _ hfr]
      rfl
    have h2t : (updNode (updNode (l.heap ++ [(l.fresh, (⟨v, none, none⟩ : Node α))])
        l.fresh fun m => ⟨m.data, none, some t⟩) t
        fun m => ⟨m.data, some l.fresh, m.prev⟩).lookup t
        = some ⟨tn.data, some l.fresh, tn.prev⟩ := by
      rw [lookup_updNode_self, lookup_updNode_ne _ (ne_of_lt htf), h0t]
      rfl
    have hcongr : ∀ b ∈ as₀,
        (updNode (updNode (l.heap ++ [(l.fresh, (⟨v, none, none⟩ : Node α))])
          l.fresh fun m => ⟨m.data, none, some t⟩) t
          fun m => ⟨m.data, some l.fresh, m.prev⟩).lookup b = l.heap.lookup b := by
      intro b hb
      have hbt : b ≠ t := fun hbt => hdis hb (by simp [hbt])
      have hbf : b < l.fresh := hmem_lt b (List.mem_append_left _ hb)
      rcases chainB_lookup hch₀ b hb with ⟨m, hm⟩
      rw [lookup_updNode_ne _ hbt, lookup_updNode_ne _ (ne_of_lt hbf),
        lookup_append_left hm, hm]
    refine ⟨⟨updNode (updNode (l.heap ++ [(l.fresh, ⟨v, none, none⟩)])
        l.fresh fun m => ⟨m.data, none, some t⟩) t
        fun m => ⟨m.data, some l.fresh, m.prev⟩, l.head, some l.fresh,
        l.count + 1, l.fresh + 1⟩, ?_, ?_, ?_, ?_, ?_, ?_, ?_, ?_⟩
    · show addAfter l l.tail v = _
      rw [htl']
      simp only [addAfter, htn_next, h0t, h2new]
    · refine chainB_snoc.2 ⟨?_, ⟨v, none, some t⟩, h2new, ?_, rfl⟩
      · refine chainB_snoc.2 ⟨?_, ⟨tn.data, some l.fresh, tn.prev⟩, h2t, htn_prev, rfl⟩
        rw [chainB_congr hcongr]
        exact hch₀
      · rw [endPrev_none, List.getLast?_concat]
    · show l.head = _
      rw [hhd]
      exact (head?_append_singleton (by simp)).symm
    · show (some l.fresh : Option Nat) = _
      rw [List.getLast?_concat]
    · show l.count + 1 = _
      rw [hct]
      simp only [List.length_append, List.length_cons, List.length_nil]
      push_cast
      ring
    · refine List.Nodup.append hnd (List.nodup_singleton _) ?_
      intro x hx hx'
      rcases List.mem_singleton.1 hx' with rfl
      exact absurd (hmem_lt _ hx) (lt_irrefl _)
    · show ∀ p ∈ updNode (updNode (l.heap ++ [(l.fresh, (⟨v, none, none⟩ : Node α))])
          l.fresh fun m => ⟨m.data, none, some t⟩) t
          fun m => ⟨m.data, some l.fresh, m.prev⟩, p.1 < l.fresh + 1
      exact bound_updNode (bound_updNode (bound_append hfr))
    · show dataMap _ ((as₀ ++ [t]) ++ [l.fresh]) = _
      rw [dataMap_append, List.map_append]
      have hdata : dataMap (updNode (updNode (l.heap ++ [(l.fresh, (⟨v, none, none⟩ : Node α))])
          l.fresh fun m => ⟨m.data, none, some t⟩) t
          fun m => ⟨m.data, some l.fresh, m.prev⟩) (as₀ ++ [t]) = dataMap l.heap (as₀ ++ [t]) := by
        refine dataMap_congr ?_
        intro b hb
        rcases List.mem_append.1 hb with hb | hb
        · rw [hcongr b hb]
        · rcases List.mem_singleton.1 hb with rfl
          rw [h2t, htn]
          rfl
      rw [hdata, hdm]
      simp [dataMap, h2new]

theorem pop_front_repr {l : LinkedList α} {a : Nat} {rest : List Nat} {xs : List α}
    (h : reprWith l (a :: rest) xs) :
    ∃ x xs' l', xs = x :: xs' ∧ pop_front l = some (.ok (x, l')) ∧
      reprWith l' rest xs' := by
  obtain ⟨hch, hhd, htl, hct, hnd, hfr, hdm⟩ := h
  have hhd' : l.head = some a := by simpa using hhd
  obtain ⟨n, hna, hprev, hnext, hrest⟩ := chainB_cons.1 hch
  obtain ⟨xs', rfl, hdm'⟩ : ∃ xs', xs = n.data :: xs' ∧
      dataMap l.heap rest = xs'.map some := by
    cases xs with
    | nil =>
        exfalso
        have h2 := hdm
        simp only [dataMap, List.map_cons, List.map_nil] at h2
        exact List.cons_ne_nil _ _ h2
    | cons x xs' =>
        have h2 := hdm
        simp only [dataMap, List.map_cons, hna, Option.map_some', List.cons.injEq,
          Option.some.injEq] at h2
        exact ⟨xs', by rw [h2.1], by simpa [dataMap] using h2.2⟩
  cases rest with
  | nil =>
      have hct' : l.count = 1 := by simpa using hct
      obtain rfl : xs' = [] := by
        have h2 := hdm'.symm
        simp only [dataMap, List.map_nil] at h2
        exact List.map_eq_nil_iff.1 h2
      have hnext' : n.next = none := by simpa [headOr] using hnext
      refine ⟨n.data, [], ⟨l.heap.filter fun p => p.1 != a, none, none,
        l.count - 1, l.fresh⟩, rfl, ?_, ?_, ?_, ?_, ?_, ?_, ?_, ?_⟩
      · show removeNode l l.head = _
        rw [hhd']
        simp only [removeNode, hhd', reduceCtorEq, ite_false, hna, hnext', hprev]
      · rfl
      · rfl
      · rfl
      · rw [hct']
        rfl
      · simp
      · exact bound_filter hfr
      · rfl
  | cons b rest' =>
      have hab : a ≠ b := by
        intro hab
        exact (List.nodup_cons.1 hnd).1 (hab ▸ List.mem_cons_self _ _)
      obtain ⟨bn, hb, hbprev, hbnext, hbrest⟩ := chainB_cons.1 hrest
      have hnext' : n.next = some b := by simpa [headOr] using hnext
      have h1a : (updNode l.heap b fun m => ⟨m.data, m.next, none⟩).lookup a = some n := by
        rw [lookup_updNode_ne _ hab, hna]
      have h1b : (updNode l.heap b fun m => ⟨m.data, m.next, none⟩).lookup b
          = some ⟨bn.data, bn.next, none⟩ := by
        rw [lookup_updNode_self, hb]
        rfl
      have h3b : ((updNode l.heap b fun m => ⟨m.data, m.next, none⟩).filter
          fun p => p.1 != a).lookup b = some ⟨bn.data, bn.next, none⟩ := by
        rw [lookup_filterKey_ne (Ne.symm hab), h1b]
      have hcongr : ∀ d ∈ rest', ((updNode l.heap b fun m => ⟨m.data, m.next, none⟩).filter
          fun p => p.1 != a).lookup d = l.heap.lookup d := by
        intro d hd
        have hda : d ≠ a := by
          intro hda
          exact (List.nodup_cons.1 hnd).1 (hda ▸ List.mem_cons_of_mem _ hd)
        have hdb : d ≠ b := by
          intro hdb
          exact (List.nodup_cons.1 (List.nodup_cons.1 hnd).2).1 (hdb ▸ hd)
        rw [lookup_filterKey_ne hda, lookup_updNode_ne _ hdb]
      refine ⟨n.data, xs', ⟨(updNode l.heap b fun m => ⟨m.data, m.next, none⟩).filter
        fun p => p.1 != a, some b, l.tail, l.count - 1, l.fresh⟩,
        rfl, ?_, ?_, ?_, ?_, ?_, ?_, ?_, ?_⟩
      · show removeNode l l.head = _
        rw [hhd']
        simp only [removeNode, hhd', reduceCtorEq, ite_false, hna, hnext', hprev, hb, h1a]
      · refine chainB_cons.2 ⟨⟨bn.data, bn.next, none⟩, h3b, rfl, hbnext, ?_⟩
        rw [chainB_congr hcongr]
        exact hbrest
      · rfl
      · rw [List.getLast?_cons_cons] at htl
        exact htl
      · rw [hct]
        push_cast [List.length_cons]
        ring
      · exact (List.nodup_cons.1 hnd).2
      · exact bound_filter (bound_updNode hfr)
      · have hdata : dataMap ((updNode l.heap b fun m => ⟨m.data, m.next, none⟩).filter
            fun p => p.1 != a) (b :: rest') = dataMap l.heap (b :: rest') := by
          refine dataMap_congr ?_
          intro d hd
          rcases List.mem_cons.1 hd with rfl | hd
          · rw [h3b, hb]
            rfl
          · rw [hcongr d hd]
        show dataMap _ (b :: rest') = _
        rw [hdata, hdm']

theorem pop_back_repr {l : LinkedList α} {as₀ : List Nat} {t : Nat} {xs : List α}
    (h : reprWith l (as₀ ++ [t]) xs) :
    ∃ x xs' l', xs = xs' ++ [x] ∧ pop_back l = some (.ok (x, l')) ∧
      reprWith l' as₀ xs' := by
  obtain ⟨hch, hhd, htl, hct, hnd, hfr, hdm⟩ := h
  have htl' : l.tail = some t := by rw [htl, List.getLast?_concat]
  have hne : ¬(l.head = none) := by
    rw [hhd]
    cases as₀ <;> simp
  obtain ⟨hch₀, tn, htn, htn_prev, htn_next⟩ := chainB_snoc.1 hch
  have hdis : as₀.Disjoint [t] := List.disjoint_of_nodup_append hnd
  have hdm2 : dataMap l.heap as₀ ++ [some tn.data] = xs.map some := by
    have h2 := hdm
    rw [dataMap_append] at h2
    simpa [dataMap, htn] using h2
  obtain ⟨xs', rfl, hdm'⟩ : ∃ xs', xs = xs' ++ [tn.data] ∧
      dataMap l.heap as₀ = xs'.map some := by
    obtain rfl | ⟨xs0, x, rfl⟩ := xs.eq_nil_or_concat
    · exfalso
      simp at hdm2
    · rw [List.concat_eq_append, List.map_append] at hdm2
      obtain ⟨h3, h4⟩ := List.append_inj' hdm2 rfl
      obtain rfl : x = tn.data := by simpa using h4.symm
      exact ⟨xs0, List.concat_eq_append _ _, h3⟩
  obtain rfl | ⟨as₁, p, rfl⟩ := as₀.eq_nil_or_concat
  · have hct' : l.count = 1 := by simpa using hct
    have htn_prev' : tn.prev = none := by simpa [endPrev] using htn_prev
    obtain rfl : xs' = [] := by
      have h2 := hdm'.symm
      simp only [dataMap, List.map_nil] at h2
      exact List.map_eq_nil_iff.1 h2
    refine ⟨tn.data, [], ⟨l.heap.filter fun p => p.1 != t, none, none,
      l.count - 1, l.fresh⟩, rfl, ?_, ?_, ?_, ?_, ?_, ?_, ?_, ?_⟩
    · show removeNode l l.tail = _
      rw [htl']
      simp only [removeNode]
      rw [if_neg hne]
      simp only [htn, htn_next, htn_prev']
    · rfl
    · rfl
    · rfl
    · rw [hct']
      rfl
    · simp
    · exact bound_filter hfr
    · rfl
  · simp only [List.concat_eq_append] at hch₀ hdm' hnd hdis hhd htn_prev hct ⊢
    have htn_prev' : tn.prev = some p := by
      rw [htn_prev, endPrev_none, List.getLast?_concat]
    obtain ⟨hch₁, pn, hpn, hpn_prev, hpn_next⟩ := chainB_snoc.1 hch₀
    have hpt : p ≠ t := by
      intro hpt
      subst hpt
      exact hdis (show p ∈ as₁ ++ [p] by simp) (by simp)
    have hdis₁ : as₁.Disjoint [p] := List.disjoint_of_nodup_append (List.nodup_append.1 hnd).1
    have h3p : ((updNode l.heap p fun m => ⟨m.data, none, m.prev⟩).filter
        fun q => q.1 != t).lookup p = some ⟨pn.data, none, pn.prev⟩ := by
      rw [lookup_filterKey_ne hpt, lookup_updNode_self, hpn]
      rfl
    have hcongr : ∀ d ∈ as₁, ((updNode l.heap p fun m => ⟨m.data, none, m.prev⟩).filter
        fun q => q.1 != t).lookup d = l.heap.lookup d := by
      intro d hd
      have hdp : d ≠ p := by
        intro hdp
        subst hdp
        exact hdis₁ hd (by simp)
      have hdt : d ≠ t := by
        intro hdt
        subst hdt
        exact hdis (List.mem_append_left _ hd) (by simp)
      rw [lookup_filterKey_ne hdt, lookup_updNode_ne _ hdp]
    refine ⟨tn.data, xs', ⟨(updNode l.heap p fun m => ⟨m.data, none, m.prev⟩).filter
      fun q => q.1 != t, l.head, some p, l.count - 1, l.fresh⟩,
      rfl, ?_, ?_, ?_, ?_, ?_, ?_, ?_, ?_⟩
    · show removeNode l l.tail = _
      rw [htl']
      simp only [removeNode]
      rw [if_neg hne]
      simp only [htn, htn_next, htn_prev', hpn]
    · refine chainB_snoc.2 ⟨?_, ⟨pn.data, none, pn.prev⟩, h3p, hpn_prev, rfl⟩
      rw [chainB_congr hcongr]
      exact hch₁
    · show l.head = _
      rw [hhd]
      exact head?_append_singleton (by simp)
    · show (some p : Option Nat) = _
      rw [List.getLast?_concat]
    · show l.count - 1 = _
      rw [hct]
      simp only [List.length_append, List.length_cons, List.length_nil]
      push_cast
      ring
    · exact (List.nodup_append.1 hnd).1
    · exact bound_filter (bound_updNode hfr)
    · have hdata : dataMap ((updNode l.heap p fun m => ⟨m.data, none, m.prev⟩).filter
          fun q => q.1 != t) (as₁ ++ [p]) = dataMap l.heap (as₁ ++ [p]) := by
        refine dataMap_congr ?_
        intro d hd
        rcases List.mem_append.1 hd with hd | hd
        · rw [hcongr d hd]
        · rcases List.mem_singleton.1 hd with rfl
          rw [h3p, hpn]
          rfl
      show dataMap _ (as₁ ++ [p]) = _
      rw [hdata, hdm']

theorem front_repr {l : LinkedList α} {a : Nat} {rest : List Nat} {xs : List α}
    (h : reprWith l (a :: rest) xs) :
    ∃ x, xs.head? = some x ∧ front l = some (.ok x) := by
  obtain ⟨hch, hhd, htl, hct, hnd, hfr, hdm⟩ := h
  have hhd' : l.head = some a := by simpa using hhd
  obtain ⟨n, hna, -, -, -⟩ := chainB_cons.1 hch
  refine ⟨n.data, ?_, ?_⟩
  · cases xs with
    | nil =>
        exfalso
        have h2 := hdm
        simp [dataMap, hna] at h2
    | cons x xs' =>
        have h2 := hdm
        simp only [dataMap, List.map_cons, hna, Option.map_some', List.cons.injEq,
          Option.some.injEq] at h2
        rw [List.head?_cons, h2.1]
  · simp only [front, hhd', hna]

theorem back_repr {l : LinkedList α} {as₀ : List Nat} {t : Nat} {xs : List α}
    (h : reprWith l (as₀ ++ [t]) xs) :
    ∃ x, xs.getLast? = some x ∧ back l = some (.ok x) := by
  obtain ⟨hch, hhd, htl, hct, hnd, hfr, hdm⟩ := h
  have htl' : l.tail = some t := by rw [htl, List.getLast?_concat]
  obtain ⟨hch₀, tn, htn, htn_prev, htn_next⟩ := chainB_snoc.1 hch
  have hdm2 : dataMap l.heap as₀ ++ [some tn.data] = xs.map some := by
    have h2 := hdm
    rw [dataMap_append] at h2
    simpa [dataMap, htn] using h2
  obtain ⟨xs', rfl⟩ : ∃ xs', xs = xs' ++ [tn.data] := by
    obtain rfl | ⟨xs0, x, rfl⟩ := xs.eq_nil_or_concat
    · exfalso
      simp at hdm2
    · rw [List.concat_eq_append, List.map_append] at hdm2
      obtain ⟨h3, h4⟩ := List.append_inj' hdm2 rfl
      obtain rfl : x = tn.data := by simpa using h4.symm
      exact ⟨xs0, List.concat_eq_append _ _⟩
  refine ⟨tn.data, ?_, ?_⟩
  · rw [List.getLast?_concat]
  · simp only [back, htl', htn]

theorem front_empty {l : LinkedList α} (h : l.head = none) :
    front l = some (.error (.emptyContainer, l)) := by
  simp [front, h]

theorem back_empty {l : LinkedList α} (h : l.tail = none) :
    back l = some (.error (.emptyContainer, l)) := by
  simp [back, h]

theorem pop_front_empty {l : LinkedList α} (h : l.head = none) :
    pop_front l = some (.error (.emptyContainer, l)) := by
  simp [pop_front, removeNode, h]

theorem pop_back_empty {l : LinkedList α} (h : l.head = none) :
    pop_back l = some (.error (.emptyContainer, l)) := by
  simp [pop_back, removeNode, h]

theorem emptyList_repr : reprWith (emptyList : LinkedList α) [] [] :=
  ⟨rfl, rfl, rfl, rfl, by simp, by simp [emptyList], rfl⟩

theorem clear_repr {l : LinkedList α} (hfr : ∀ p ∈ l.heap, p.1 < l.fresh) :
    reprWith (clear l) [] [] := by
  refine ⟨rfl, rfl, rfl, rfl, by simp, ?_, rfl⟩
  intro p hp
  exact hfr p (List.mem_of_mem_filter hp)

theorem destroyChain_none (heap : List (Nat × Node α)) (fuel : Nat) :
    destroyChain heap none fuel = [] := by
  cases fuel <;> rfl

theorem clear_clear (l : LinkedList α) : clear (clear l) = clear l := by
  show LinkedList.mk _ _ _ _ _ = LinkedList.mk _ _ _ _ _
  congr 1
  refine List.filter_eq_self.2 fun p hp => ?_
  show (!(destroyChain (clear l).heap (clear l).head
      (clear l).heap.length).contains p.1) = true
  have hh : (clear l).head = none := rfl
  rw [hh, destroyChain_none]
  rfl


/-! ## Traversal lemmas -/

theorem traverseFwd_none (heap : List (Nat × Node α)) (fuel : Nat) :
    traverseFwd heap none fuel = some [] := by
  cases fuel <;> rfl

theorem traverseBwd_none (heap : List (Nat × Node α)) (fuel : Nat) :
    traverseBwd heap none fuel = some [] := by
  cases fuel <;> rfl

theorem walkNext_none (heap : List (Nat × Node α)) (fuel : Nat) :
    walkNext heap none fuel = some [] := by
  cases fuel <;> rfl

theorem traverseFwd_some (heap : List (Nat × Node α)) (a : Nat) (fuel : Nat) :
    traverseFwd heap (some a) (fuel + 1) =
      match heap.lookup a with
      | none => none
      | some n => (traverseFwd heap n.next fuel).map (n.data :: ·) := rfl

theorem traverseBwd_some (heap : List (Nat × Node α)) (a : Nat) (fuel : Nat) :
    traverseBwd heap (some a) (fuel + 1) =
      match heap.lookup a with
      | none => none
      | some n => (traverseBwd heap n.prev fuel).map (n.data :: ·) := rfl

theorem walkNext_some (heap : List (Nat × Node α)) (a : Nat) (fuel : Nat) :
    walkNext heap (some a) (fuel + 1) =
      match heap.lookup a with
      | none => none
      | some n => (walkNext heap n.next fuel).map (a :: ·) := rfl

theorem destroyChain_some (heap : List (Nat × Node α)) (a : Nat) (fuel : Nat) :
    destroyChain heap (some a) (fuel + 1) =
      a :: (match heap.lookup a with
            | none => []
            | some n => destroyChain heap n.next fuel) := rfl

theorem traverseFwd_chain {heap : List (Nat × Node α)} {as : List Nat} :
    ∀ {pr : Option Nat} {fuel : Nat}, chainB heap pr as none = true →
      as.length ≤ fuel →
      ∃ zs, traverseFwd heap (headOr as none) fuel = some zs ∧
        zs.map some = dataMap heap as := by
  induction as with
  | nil => exact fun _ _ => ⟨[], traverseFwd_none _ _, rfl⟩
  | cons a rest ih =>
      intro pr fuel h hfuel
      obtain ⟨n, hna, hprev, hnext, hrest⟩ := chainB_cons.1 h
      cases fuel with
      | zero => simp at hfuel
      | succ f =>
          have hfuel' : rest.length ≤ f := by
            simp only [List.length_cons] at hfuel
            omega
          obtain ⟨zs, hz, hzd⟩ := ih hrest hfuel'
          refine ⟨n.data :: zs, ?_, ?_⟩
          · show traverseFwd heap (some a) (f + 1) = _
            simp only [traverseFwd_some, hna, hnext, hz, Option.map_some']
          · show List.map some (n.data :: zs) = dataMap heap (a :: rest)
            rw [List.map_cons, hzd]
            simp [dataMap, hna]

theorem traverseBwd_chain {heap : List (Nat × Node α)} {as : List Nat} :
    ∀ {nx : Option Nat} {fuel : Nat}, chainB heap none as nx = true →
      as.length ≤ fuel →
      ∃ zs, traverseBwd heap as.getLast? fuel = some zs ∧
        zs.map some = (dataMap heap as).reverse := by
  induction as using List.reverseRecOn with
  | nil => exact fun _ _ => ⟨[], traverseBwd_none _ _, rfl⟩
  | append_singleton as₀ t ih =>
      intro nx fuel h hfuel
      obtain ⟨hch₀, tn, htn, htn_prev, htn_next⟩ := chainB_snoc.1 h
      rw [List.length_append, List.length_cons, List.length_nil] at hfuel
      cases fuel with
      | zero => omega
      | succ f =>
          have hfuel' : as₀.length ≤ f := by omega
          obtain ⟨zs, hz, hzd⟩ := ih hch₀ hfuel'
          refine ⟨tn.data :: zs, ?_, ?_⟩
          · rw [List.getLast?_concat]
            simp only [traverseBwd_some, htn, htn_prev, endPrev_none, hz,
              Option.map_some']
          · show List.map some (tn.data :: zs) = (dataMap heap (as₀ ++ [t])).reverse
            rw [List.map_cons, hzd, dataMap_append]
            simp [dataMap, htn, List.reverse_append]

theorem walkNext_chain {heap : List (Nat × Node α)} {as : List Nat} :
    ∀ {pr : Option Nat}, chainB heap pr as none = true →
      walkNext heap (headOr as none) as.length = some as := by
  induction as with
  | nil => exact fun _ => walkNext_none _ _
  | cons a rest ih =>
      intro pr h
      obtain ⟨n, hna, hprev, hnext, hrest⟩ := chainB_cons.1 h
      show walkNext heap (some a) (rest.length + 1) = _
      simp only [walkNext_some, hna, hnext, ih hrest, Option.map_some']

theorem destroyChain_chain {heap : List (Nat × Node α)} {as : List Nat} :
    ∀ {pr : Option Nat} {fuel : Nat}, chainB heap pr as none = true →
      as.length ≤ fuel →
      destroyChain heap (headOr as none) fuel = as := by
  induction as with
  | nil => exact fun _ _ => destroyChain_none _ _
  | cons a rest ih =>
      intro pr fuel h hfuel
      obtain ⟨n, hna, hprev, hnext, hrest⟩ := chainB_cons.1 h
      cases fuel with
      | zero => simp at hfuel
      | succ f =>
          have hfuel' : rest.length ≤ f := by
            simp only [List.length_cons] at hfuel
            omega
          show destroyChain heap (some a) (f + 1) = _
          simp only [destroyChain_some, hna, hnext, ih hrest hfuel']

theorem chain_next_prev {heap : List (Nat × Node α)} {as : List Nat} :
    ∀ {pr : Option Nat}, chainB heap pr as none = true →
      ∀ a ∈ as, ∀ n, heap.lookup a = some n → ∀ b, n.next = some b →
        ∃ m, heap.lookup b = some m ∧ m.prev = some a := by
  induction as with
  | nil => simp
  | cons a₀ rest ih =>
      intro pr h a ha n hn b hb
      obtain ⟨n₀, hn₀, hp₀, hx₀, hrest⟩ := chainB_cons.1 h
      rcases List.mem_cons.1 ha with rfl | ha
      · rw [hn₀] at hn
        obtain rfl : n₀ = n := Option.some.inj hn
        rw [hb] at hx₀
        cases rest with
        | nil => exact absurd hx₀.symm (by simp [headOr])
        | cons b' rest' =>
            obtain rfl : b' = b := by simpa [headOr] using hx₀.symm
            obtain ⟨m, hm, hmp, -, -⟩ := chainB_cons.1 hrest
            exact ⟨m, hm, by rw [hmp]⟩
      · exact ih hrest a ha n hn b hb

theorem chain_prev_next {heap : List (Nat × Node α)} {as : List Nat} :
    ∀ {nx : Option Nat}, chainB heap none as nx = true →
      ∀ a ∈ as, ∀ n, heap.lookup a = some n → ∀ b, n.prev = some b →
        ∃ m, heap.lookup b = some m ∧ m.next = some a := by
  induction as using List.reverseRecOn with
  | nil => simp
  | append_singleton as₀ t ih =>
      intro nx h a ha n hn b hb
      obtain ⟨hch₀, tn, htn, htn_prev, htn_next⟩ := chainB_snoc.1 h
      rcases List.mem_append.1 ha with ha | ha
      · exact ih hch₀ a ha n hn b hb
      · rcases List.mem_singleton.1 ha with rfl
        rw [htn] at hn
        obtain rfl : tn = n := Option.some.inj hn
        have hlast : as₀.getLast? = some b := by
          rw [← endPrev_none, ← htn_prev, hb]
        obtain rfl | ⟨as₁, p, rfl⟩ := as₀.eq_nil_or_concat
        · simp at hlast
        · rw [List.concat_eq_append, List.getLast?_concat] at hlast
          obtain rfl : p = b := Option.some.inj hlast
          rw [List.concat_eq_append] at hch₀
          obtain ⟨hch₁, pn, hpn, hpn_prev, hpn_next⟩ := chainB_snoc.1 hch₀
          exact ⟨pn, hpn, hpn_next⟩

/-! ## From the representation to the spec-level facts -/

theorem repr_invariant {l : LinkedList α} {as : List Nat} {xs : List α}
    (h : reprWith l as xs) : Invariant l := by
  obtain ⟨hch, hhd, htl, hct, hnd, hfr, hdm⟩ := h
  refine ⟨?_, ?_, ?_, as, ?_, hct.symm, htl, ?_, ?_⟩
  · rw [hct, hhd, List.head?_eq_none_iff]
    cases as with
    | nil => simp
    | cons a rest =>
        simp
        omega
  · rw [hhd, htl, List.head?_eq_none_iff, List.getLast?_eq_none_iff]
  · intro h1
    rw [hct] at h1
    have h2 : as.length = 1 := by exact_mod_cast h1
    obtain ⟨a, rfl⟩ := List.length_eq_one.1 h2
    rw [hhd, htl]
    simp
  · rw [hhd, hct, ← headOr_none]
    simpa using walkNext_chain hch
  · intro t ht n hn
    rw [htl] at ht
    obtain rfl | ⟨as₀, t', rfl⟩ := as.eq_nil_or_concat
    · simp at ht
    · rw [List.concat_eq_append, List.getLast?_concat] at ht
      obtain rfl : t' = t := Option.some.inj ht
      rw [List.concat_eq_append] at hch
      obtain ⟨-, tn, htn, -, htn_next⟩ := chainB_snoc.1 hch
      rw [htn] at hn
      obtain rfl : tn = n := Option.some.inj hn
      exact htn_next
  · intro a ha n hn
    exact ⟨chain_next_prev hch a ha n hn, chain_prev_next hch a ha n hn⟩

theorem repr_size {l : LinkedList α} {as : List Nat} {xs : List α}
    (h : reprWith l as xs) : size l = (xs.length : Int) := by
  have hlen : as.length = xs.length := by
    have h2 := congrArg List.length h.2.2.2.2.2.2
    simpa [dataMap] using h2
  show l.count = _
  rw [h.2.2.2.1, hlen]

theorem repr_empty_iff {l : LinkedList α} {as : List Nat} {xs : List α}
    (h : reprWith l as xs) : (empty l = true ↔ size l = 0) := by
  obtain ⟨hch, hhd, htl, hct, -, -, -⟩ := h
  show (l.head == none) = true ↔ l.count = 0
  rw [beq_iff_eq, hhd, hct, List.head?_eq_none_iff]
  cases as with
  | nil => simp
  | cons a rest =>
      simp
      omega

theorem repr_length_le {l : LinkedList α} {as : List Nat} {xs : List α}
    (h : reprWith l as xs) : as.length ≤ l.heap.length := by
  have hsub : as ⊆ l.heap.map Prod.fst := by
    intro a ha
    rcases chainB_lookup h.1 a ha with ⟨n, hn⟩
    exact List.mem_map.2 ⟨(a, n), lookup_mem hn, rfl⟩
  have h2 := (List.subperm_of_subset h.2.2.2.2.1 hsub).length_le
  simpa using h2

theorem repr_listAbsFwd {l : LinkedList α} {as : List Nat} {xs : List α}
    (h : reprWith l as xs) : listAbsFwd l = some xs := by
  obtain ⟨zs, hz, hzd⟩ := traverseFwd_chain h.1 (repr_length_le h)
  obtain rfl : xs = zs :=
    (List.map_injective_iff.2 (Option.some_injective α) (hzd.trans h.2.2.2.2.2.2)).symm
  show traverseFwd l.heap (beginIt l) l.heap.length = some xs
  rw [show beginIt l = l.head from rfl, h.2.1, ← headOr_none]
  exact hz

theorem repr_listAbsBwd {l : LinkedList α} {as : List Nat} {xs : List α}
    (h : reprWith l as xs) : listAbsBwd l = some xs.reverse := by
  obtain ⟨zs, hz, hzd⟩ := traverseBwd_chain h.1 (repr_length_le h)
  have hzx : zs = xs.reverse := by
    refine List.map_injective_iff.2 (Option.some_injective α) ?_
    rw [hzd, h.2.2.2.2.2.2, List.map_reverse]
  rw [hzx] at hz
  show traverseBwd l.heap (rbeginIt l) l.heap.length = some xs.reverse
  rw [show rbeginIt l = l.tail from rfl, h.2.2.1]
  exact hz

/-! ## Preservation along operation sequences -/

theorem applyOp_repr {l : LinkedList α} {as : List Nat} {xs : List α}
    (h : reprWith l as xs) (op : Op α) :
    ∃ l' as' xs', applyOp l op = some l' ∧ reprWith l' as' xs' := by
  cases op with
  | pushF v =>
      obtain ⟨l', h1, h2⟩ := push_front_repr h v
      exact ⟨l', _, _, h1, h2⟩
  | pushB v =>
      obtain ⟨l', h1, h2⟩ := push_back_repr h v
      exact ⟨l', _, _, h1, h2⟩
  | popF =>
      cases as with
      | nil =>
          have hhd : l.head = none := by simpa using h.2.1
          refine ⟨l, [], xs, ?_, h⟩
          simp only [applyOp, pop_front_empty hhd]
      | cons a rest =>
          obtain ⟨x, xs', l', hxs, h1, h2⟩ := pop_front_repr h
          refine ⟨l', rest, xs', ?_, h2⟩
          simp only [applyOp, h1]
  | popB =>
      obtain rfl | ⟨as₀, t, rfl⟩ := as.eq_nil_or_concat
      · have hhd : l.head = none := by simpa using h.2.1
        refine ⟨l, [], xs, ?_, h⟩
        simp only [applyOp, pop_back_empty hhd]
      · rw [List.concat_eq_append] at h
        obtain ⟨x, xs', l', hxs, h1, h2⟩ := pop_back_repr h
        refine ⟨l', as₀, xs', ?_, h2⟩
        simp only [applyOp, h1]
  | clearOp => exact ⟨clear l, [], [], rfl, clear_repr h.2.2.2.2.2.1⟩

theorem runOps_WFR : ∀ (ops : List (Op α)) (l : LinkedList α), WFR l →
    ∃ l', runOps l ops = some l' ∧ WFR l' := by
  intro ops
  induction ops with
  | nil => exact fun l h => ⟨l, rfl, h⟩
  | cons op ops ih =>
      intro l h
      obtain ⟨as, xs, hr⟩ := h
      obtain ⟨l1, as1, xs1, h1, h2⟩ := applyOp_repr hr op
      obtain ⟨l', h3, h4⟩ := ih l1 ⟨as1, xs1, h2⟩
      refine ⟨l', ?_, h4⟩
      simp only [runOps, h1]
      exact h3

theorem runOps_pushes : ∀ (ops : List (Op α)), (∀ op ∈ ops, isPush op = true) →
    ∀ (l : LinkedList α) (as : List Nat) (xs : List α), reprWith l as xs →
      ∃ l' as', runOps l ops = some l' ∧
        reprWith l' as' (pushModelFrom xs ops) := by
  intro ops
  induction ops with
  | nil => exact fun _ l as xs h => ⟨l, as, rfl, h⟩
  | cons op ops ih =>
      intro hall l as xs h
      have hall' : ∀ op ∈ ops, isPush op = true :=
        fun op hop => hall op (List.mem_cons_of_mem _ hop)
      cases op with
      | pushF v =>
          obtain ⟨l1, h1, h2⟩ := push_front_repr h v
          obtain ⟨l', as', h3, h4⟩ := ih hall' l1 _ _ h2
          refine ⟨l', as', ?_, h4⟩
          simp only [runOps, applyOp, h1]
          exact h3
      | pushB v =>
          obtain ⟨l1, h1, h2⟩ := push_back_repr h v
          obtain ⟨l', as', h3, h4⟩ := ih hall' l1 _ _ h2
          refine ⟨l', as', ?_, h4⟩
          simp only [runOps, applyOp, h1]
          exact h3
      | popF => exact absurd (hall _ (List.mem_cons_self _ _)) (by simp [isPush])
      | popB => exact absurd (hall _ (List.mem_cons_self _ _)) (by simp [isPush])
      | clearOp => exact absurd (hall _ (List.mem_cons_self _ _)) (by simp [isPush])

theorem runOps_model4 : ∀ (ops : List (Op α)) (l : LinkedList α) (as : List Nat)
    (xs ys : List α), reprWith l as xs → modelRun4 xs ops = some ys →
    ∃ l' as', runOps l ops = some l' ∧ reprWith l' as' ys := by
  intro ops
  induction ops with
  | nil =>
      intro l as xs ys h hm
      obtain rfl : xs = ys := Option.some.inj hm
      exact ⟨l, as, rfl, h⟩
  | cons op ops ih =>
      intro l as xs ys h hm
      cases op with
      | pushF v =>
          obtain ⟨l1, h1, h2⟩ := push_front_repr h v
          obtain ⟨l', as', h3, h4⟩ := ih l1 _ _ ys h2 hm
          refine ⟨l', as', ?_, h4⟩
          simp only [runOps, applyOp, h1]
          exact h3
      | pushB v =>
          obtain ⟨l1, h1, h2⟩ := push_back_repr h v
          obtain ⟨l', as', h3, h4⟩ := ih l1 _ _ ys h2 hm
          refine ⟨l', as', ?_, h4⟩
          simp only [runOps, applyOp, h1]
          exact h3
      | popF =>
          cases xs with
          | nil => simp [modelRun4] at hm
          | cons x xs' =>
              cases as with
              | nil =>
                  exfalso
                  have h2 := h.2.2.2.2.2.2
                  simp [dataMap] at h2
              | cons a rest =>
                  obtain ⟨x0, xs0, l1, hxs, h1, h2⟩ := pop_front_repr h
                  rw [List.cons.injEq] at hxs
                  obtain ⟨rfl, rfl⟩ := hxs
                  obtain ⟨l', as', h3, h4⟩ := ih l1 rest xs' ys h2 hm
                  refine ⟨l', as', ?_, h4⟩
                  simp only [runOps, applyOp, h1]
                  exact h3
      | popB =>
          cases xs with
          | nil => simp [modelRun4] at hm
          | cons x xs' =>
              obtain rfl | ⟨as₀, t, rfl⟩ := as.eq_nil_or_concat
              · exfalso
                have h2 := h.2.2.2.2.2.2
                simp [dataMap] at h2
              · rw [List.concat_eq_append] at h
                obtain ⟨x0, xs0, l1, hxs, h1, h2⟩ := pop_back_repr h
                have hm2 : modelRun4 ((x :: xs').dropLast) ops = some ys := hm
                rw [hxs, List.dropLast_concat] at hm2
                obtain ⟨l', as', h3, h4⟩ := ih l1 as₀ xs0 ys h2 hm2
                refine ⟨l', as', ?_, h4⟩
                simp only [runOps, applyOp, h1]
                exact h3
      | clearOp => simp [modelRun4] at hm

theorem modelRun4_length : ∀ (ops : List (Op α)) (xs ys : List α),
    modelRun4 xs ops = some ys →
    (ys.length : Int) = xs.length + pushCount ops - popCount ops := by
  intro ops
  induction ops with
  | nil =>
      intro xs ys hm
      obtain rfl : xs = ys := Option.some.inj hm
      simp [pushCount, popCount]
  | cons op ops ih =>
      intro xs ys hm
      cases op with
      | pushF v =>
          have h2 := ih (v :: xs) ys hm
          simp only [pushCount, popCount, isPush, if_pos, List.length_cons] at h2 ⊢
          push_cast at h2 ⊢
          omega
      | pushB v =>
          have h2 := ih (xs ++ [v]) ys hm
          simp only [pushCount, popCount, isPush, if_pos, List.length_append,
            List.length_cons, List.length_nil] at h2 ⊢
          push_cast at h2 ⊢
          omega
      | popF =>
          cases xs with
          | nil => simp [modelRun4] at hm
          | cons x xs' =>
              have h2 := ih xs' ys hm
              simp only [pushCount, popCount, isPush, if_neg, List.length_cons,
                Bool.false_eq_true, ite_false] at h2 ⊢
              push_cast at h2 ⊢
              omega
      | popB =>
          cases xs with
          | nil => simp [modelRun4] at hm
          | cons x xs' =>
              have h2 := ih ((x :: xs').dropLast) ys hm
              simp only [pushCount, popCount, isPush, if_neg, List.length_dropLast,
                List.length_cons, Bool.false_eq_true, ite_false] at h2 ⊢
              push_cast at h2 ⊢
              omega
      | clearOp => simp [modelRun4] at hm

/-! ## The claims -/

/-- C1: for every reachable list state (every state produced by a finite
sequence of `push_front`, `push_back`, `pop_front`, `pop_back`, `clear`
starting from a newly constructed empty list), the structural invariants
hold: `count == 0` iff `head` is null iff `tail` is null; if `count == 1`
then `head == tail`; walking forward from `head` via `next` visits exactly
`count` nodes and reaches `tail` last with `tail.next` null; and every
node's `next.prev` and `prev.next` point back at the node. -/
theorem C1_reachable_invariants {α : Type} (ops : List (Op α)) (l : LinkedList α)
    (h : runOps emptyList ops = some l) : Invariant l := by
  obtain ⟨l', h3, as, xs, hr⟩ := runOps_WFR ops emptyList ⟨[], [], emptyList_repr⟩
  obtain rfl : l = l' := Option.some.inj (h.symm.trans h3)
  exact repr_invariant hr

/-- Witness for C1: the invariants hold after a concrete operation
sequence. -/
theorem C1_reachable_invariants_witness :
    runOps (emptyList : LinkedList Nat) [Op.pushB 1, Op.pushF 2, Op.popB, Op.pushB 3]
      = some ⟨[(1, ⟨2, some 2, none⟩), (2, ⟨3, none, some 1⟩)], some 1, some 2, 2, 3⟩ ∧
    Invariant (⟨[(1, ⟨2, some 2, none⟩), (2, ⟨3, none, some 1⟩)],
      some 1, some 2, 2, 3⟩ : LinkedList Nat) :=
  ⟨by decide, C1_reachable_invariants [Op.pushB 1, Op.pushF 2, Op.popB, Op.pushB 3]
    _ (by decide)⟩

/-- C2: each of `front()`, `back()`, `pop_front()`, `pop_back()` raises the
EmptyContainer error if and only if `size() == 0`, and when it raises, the
list state carried alongside the error is exactly the original list (no
partial mutation); on a non-empty list all four succeed. -/
theorem C2_empty_errors {α : Type} {l : LinkedList α} (h : WFR l) :
    (size l = 0 →
      front l = some (.error (.emptyContainer, l)) ∧
      back l = some (.error (.emptyContainer, l)) ∧
      pop_front l = some (.error (.emptyContainer, l)) ∧
      pop_back l = some (.error (.emptyContainer, l))) ∧
    (size l ≠ 0 →
      (∃ x, front l = some (.ok x)) ∧ (∃ x, back l = some (.ok x)) ∧
      (∃ r, pop_front l = some (.ok r)) ∧ (∃ r, pop_back l = some (.ok r))) := by
  obtain ⟨as, xs, hr⟩ := h
  constructor
  · intro hsz
    have hct := hr.2.2.2.1
    rw [show size l = l.count from rfl, hct] at hsz
    have has : as = [] := by
      cases as with
      | nil => rfl
      | cons a rest => exfalso; simp at hsz; omega
    subst has
    have hhd : l.head = none := by simpa using hr.2.1
    have htl : l.tail = none := by simpa using hr.2.2.1
    exact ⟨front_empty hhd, back_empty htl, pop_front_empty hhd, pop_back_empty hhd⟩
  · intro hsz
    have has : as ≠ [] := by
      rintro rfl
      apply hsz
      show l.count = 0
      simpa using hr.2.2.2.1
    obtain ⟨a, rest, rfl⟩ : ∃ a rest, as = a :: rest := by
      cases as with
      | nil => exact absurd rfl has
      | cons a rest => exact ⟨a, rest, rfl⟩
    obtain ⟨as₀, t, hsnoc⟩ : ∃ as₀ t, a :: rest = as₀ ++ [t] := by
      obtain hnil | ⟨as₀, t, hs⟩ := (a :: rest).eq_nil_or_concat
      · exact absurd hnil (by simp)
      · exact ⟨as₀, t, by rw [hs, List.concat_eq_append]⟩
    have hr2 := hr
    rw [hsnoc] at hr2
    obtain ⟨xf, -, hf⟩ := front_repr hr
    obtain ⟨xb, -, hb⟩ := back_repr hr2
    obtain ⟨x1, xs1, l1, -, h1, -⟩ := pop_front_repr hr
    obtain ⟨x2, xs2, l2, -, h2, -⟩ := pop_back_repr hr2
    exact ⟨⟨xf, hf⟩, ⟨xb, hb⟩, ⟨(x1, l1), h1⟩, ⟨(x2, l2), h2⟩⟩

/-- Witness for C2 at the newly constructed empty list. -/
theorem C2_empty_errors_witness :
    (size (emptyList : LinkedList Nat) = 0 →
      front (emptyList : LinkedList Nat)
          = some (.error (.emptyContainer, emptyList)) ∧
      back (emptyList : LinkedList Nat)
          = some (.error (.emptyContainer, emptyList)) ∧
      pop_front (emptyList : LinkedList Nat)
          = some (.error (.emptyContainer, emptyList)) ∧
      pop_back (emptyList : LinkedList Nat)
          = some (.error (.emptyContainer, emptyList))) ∧
    (size (emptyList : LinkedList Nat) ≠ 0 →
      (∃ x, front (emptyList : LinkedList Nat) = some (.ok x)) ∧
      (∃ x, back (emptyList : LinkedList Nat) = some (.ok x)) ∧
      (∃ r, pop_front (emptyList : LinkedList Nat) = some (.ok r)) ∧
      (∃ r, pop_back (emptyList : LinkedList Nat) = some (.ok r))) :=
  C2_empty_errors ⟨[], [], emptyList_repr⟩

/-- C3: for every sequence of pushes producing a list, forward traversal
from `begin()` to `end()` visits exactly `size()` elements in push order
(`push_back` appends at the end, `push_front` prepends at the front), and
backward traversal from `rbegin()` to `rend()` visits the same elements in
reverse order. -/
theorem C3_traversal_order {α : Type} (ops : List (Op α))
    (hall : ∀ op ∈ ops, isPush op = true) :
    ∃ l, runOps emptyList ops = some l ∧
      size l = ((pushModelFrom [] ops).length : Int) ∧
      listAbsFwd l = some (pushModelFrom [] ops) ∧
      listAbsBwd l = some (pushModelFrom [] ops).reverse := by
  obtain ⟨l, as, h3, h4⟩ := runOps_pushes ops hall emptyList [] [] emptyList_repr
  exact ⟨l, h3, repr_size h4, repr_listAbsFwd h4, repr_listAbsBwd h4⟩

/-- Witness for C3 at a concrete push sequence. -/
theorem C3_traversal_order_witness :
    ∃ l : LinkedList Nat,
      runOps emptyList [Op.pushB 1, Op.pushB 2, Op.pushF 3] = some l ∧
      size l = ((pushModelFrom ([] : List Nat)
        [Op.pushB 1, Op.pushB 2, Op.pushF 3]).length : Int) ∧
      listAbsFwd l = some (pushModelFrom []
        [Op.pushB 1, Op.pushB 2, Op.pushF 3]) ∧
      listAbsBwd l = some (pushModelFrom []
        [Op.pushB 1, Op.pushB 2, Op.pushF 3]).reverse :=
  C3_traversal_order _ (by decide)

/-- C4: for every list state and every value `v`, `push_back(v)` followed
immediately by `pop_back()` returns `v` and leaves `size()` equal to its
value before the push; symmetrically for `push_front`/`pop_front`. -/
theorem C4_push_pop_inverse {α : Type} {l : LinkedList α} (h : WFR l) (v : α) :
    (∃ l₁ l₂, push_back l v = some l₁ ∧ pop_back l₁ = some (.ok (v, l₂)) ∧
      size l₂ = size l) ∧
    (∃ l₁ l₂, push_front l v = some l₁ ∧ pop_front l₁ = some (.ok (v, l₂)) ∧
      size l₂ = size l) := by
  obtain ⟨as, xs, hr⟩ := h
  constructor
  · obtain ⟨l₁, h1, h2⟩ := push_back_repr hr v
    obtain ⟨x, xs', l₂, hxs, h3, h4⟩ := pop_back_repr h2
    obtain ⟨h5, h6⟩ := List.append_inj' hxs rfl
    obtain rfl : x = v := by simpa using h6.symm
    refine ⟨l₁, l₂, h1, h3, ?_⟩
    rw [repr_size h4, repr_size hr, h5]
  · obtain ⟨l₁, h1, h2⟩ := push_front_repr hr v
    obtain ⟨x, xs', l₂, hxs, h3, h4⟩ := pop_front_repr h2
    rw [List.cons.injEq] at hxs
    obtain ⟨rfl, rfl⟩ := hxs
    exact ⟨l₁, l₂, h1, h3, by rw [repr_size h4, repr_size hr]⟩

/-- Witness for C4 at the empty list and `v = 5`. -/
theorem C4_push_pop_inverse_witness :
    (∃ l₁ l₂, push_back (emptyList : LinkedList Nat) 5 = some l₁ ∧
      pop_back l₁ = some (.ok (5, l₂)) ∧
      size l₂ = size (emptyList : LinkedList Nat)) ∧
    (∃ l₁ l₂, push_front (emptyList : LinkedList Nat) 5 = some l₁ ∧
      pop_front l₁ = some (.ok (5, l₂)) ∧
      size l₂ = size (emptyList : LinkedList Nat)) :=
  C4_push_pop_inverse ⟨[], [], emptyList_repr⟩ 5

/-- C5: for every finite sequence of push/pop operations applied to a newly
constructed list, pops only performed on a non-empty list, `size()` equals
the number of pushes minus the number of pops, and `empty()` is true iff
`size() == 0`. -/
theorem C5_size_pushes_minus_pops {α : Type} (ops : List (Op α)) (ys : List α)
    (h : modelRun4 [] ops = some ys) :
    ∃ l, runOps emptyList ops = some l ∧
      size l = pushCount ops - popCount ops ∧
      (empty l = true ↔ size l = 0) := by
  obtain ⟨l, as, h3, h4⟩ := runOps_model4 ops emptyList [] [] ys emptyList_repr h
  refine ⟨l, h3, ?_, repr_empty_iff h4⟩
  rw [repr_size h4, modelRun4_length ops [] ys h]
  simp

/-- Witness for C5 at a concrete guarded sequence. -/
theorem C5_size_pushes_minus_pops_witness :
    ∃ l : LinkedList Nat,
      runOps emptyList [Op.pushB 1, Op.pushF 2, Op.popF] = some l ∧
      size l = pushCount [Op.pushB (1 : Nat), Op.pushF 2, Op.popF]
        - popCount [Op.pushB (1 : Nat), Op.pushF 2, Op.popF] ∧
      (empty l = true ↔ size l = 0) :=
  C5_size_pushes_minus_pops [Op.pushB 1, Op.pushF 2, Op.popF] [1] rfl

/-- C6: after `clear()` the list satisfies `size() == 0`, `empty()`,
null `head` and `tail`, and a subsequent `push_back` behaves exactly as on
a newly constructed list (same abstract one-element result). -/
theorem C6_clear_resets {α : Type} {l : LinkedList α} (h : WFR l) (v : α) :
    size (clear l) = 0 ∧ empty (clear l) = true ∧
    (clear l).head = none ∧ (clear l).tail = none ∧
    (∃ l₁, push_back (clear l) v = some l₁ ∧ listAbsFwd l₁ = some [v] ∧
      size l₁ = 1) ∧
    (∃ l₀, push_back (emptyList : LinkedList α) v = some l₀ ∧
      listAbsFwd l₀ = some [v] ∧ size l₀ = 1) := by
  obtain ⟨as, xs, hr⟩ := h
  have hcr := clear_repr hr.2.2.2.2.2.1
  obtain ⟨l₁, h1, h2⟩ := push_back_repr hcr v
  obtain ⟨l₀, h0, h02⟩ := push_back_repr (@emptyList_repr α) v
  refine ⟨rfl, rfl, rfl, rfl, ⟨l₁, h1, ?_, ?_⟩, ⟨l₀, h0, ?_, ?_⟩⟩
  · exact repr_listAbsFwd h2
  · exact repr_size h2
  · exact repr_listAbsFwd h02
  · exact repr_size h02

/-- Witness for C6 at the empty list and `v = 7`. -/
theorem C6_clear_resets_witness :
    size (clear (emptyList : LinkedList Nat)) = 0 ∧
    empty (clear (emptyList : LinkedList Nat)) = true ∧
    (clear (emptyList : LinkedList Nat)).head = none ∧
    (clear (emptyList : LinkedList Nat)).tail = none ∧
    (∃ l₁, push_back (clear (emptyList : LinkedList Nat)) 7 = some l₁ ∧
      listAbsFwd l₁ = some [7] ∧ size l₁ = 1) ∧
    (∃ l₀, push_back (emptyList : LinkedList Nat) 7 = some l₀ ∧
      listAbsFwd l₀ = some [7] ∧ size l₀ = 1) :=
  C6_clear_resets ⟨[], [], emptyList_repr⟩ 7

/-- C7: contrary to the claim, `clear()` does NOT release the chain
iteratively: `delete head` enters the recursive `Node::~Node` destructor
(`delete next`), one nested frame per node.  On the 5-element list built by
five `push_back` calls the nested destructor call depth is 5, on a
1-element list it is 1 — the depth grows linearly with the length `n`
(`clearCallDepth = size`), it is not a bounded, iterative release. -/
theorem C7_clear_recursive_depth :
    ∃ l₅ l₁ : LinkedList Nat,
      runOps emptyList [Op.pushB 1, Op.pushB 2, Op.pushB 3, Op.pushB 4,
        Op.pushB 5] = some l₅ ∧
      clearCallDepth l₅ = 5 ∧ size l₅ = 5 ∧
      runOps emptyList [Op.pushB 1] = some l₁ ∧
      clearCallDepth l₁ = 1 ∧ size l₁ = 1 :=
  ⟨⟨[(0, ⟨1, some 1, none⟩), (1, ⟨2, some 2, some 0⟩), (2, ⟨3, some 3, some 1⟩),
      (3, ⟨4, some 4, some 2⟩), (4, ⟨5, none, some 3⟩)], some 0, some 4, 5, 5⟩,
    ⟨[(0, ⟨1, none, none⟩)], some 0, some 0, 1, 1⟩,
    by decide, by decide, by decide, by decide, by decide, by decide⟩

/-- C8: `begin() == end()` iff the list is empty; iterators compare equal
iff both are the sentinel or both address the same node (modelled from the
spec, `LinkedListIterator.h` not being under `src/`); `begin()` addresses
the head node and `end()` is the sentinel. -/
theorem C8_begin_end_iff {α : Type} {l : LinkedList α} (h : WFR l) :
    (iterEq (beginIt l) (endIt l) = true ↔ empty l = true) ∧
    (empty l = true ↔ size l = 0) ∧
    beginIt l = l.head ∧ endIt l = none := by
  obtain ⟨as, xs, hr⟩ := h
  exact ⟨Iff.rfl, repr_empty_iff hr, rfl, rfl⟩

/-- Witness for C8 at the empty list. -/
theorem C8_begin_end_iff_witness :
    (iterEq (beginIt (emptyList : LinkedList Nat))
        (endIt (emptyList : LinkedList Nat)) = true ↔
      empty (emptyList : LinkedList Nat) = true) ∧
    (empty (emptyList : LinkedList Nat) = true ↔
      size (emptyList : LinkedList Nat) = 0) ∧
    beginIt (emptyList : LinkedList Nat) = (emptyList : LinkedList Nat).head ∧
    endIt (emptyList : LinkedList Nat) = none :=
  C8_begin_end_iff ⟨[], [], emptyList_repr⟩

/-- C9: for every non-empty list, `push_front(v)` leaves the tail node and
the value returned by `back()` unchanged, and `push_back(v)` leaves the
head node and the value returned by `front()` unchanged. -/
theorem C9_push_frame {α : Type} {l : LinkedList α} (h : WFR l)
    (hne : empty l = false) (v : α) :
    (∃ l', push_front l v = some l' ∧ l'.tail = l.tail ∧ back l' = back l) ∧
    (∃ l', push_back l v = some l' ∧ l'.head = l.head ∧ front l' = front l) := by
  obtain ⟨as, xs, hr⟩ := h
  have has : as ≠ [] := by
    rintro rfl
    rw [show empty l = (l.head == none) from rfl, hr.2.1] at hne
    simp at hne
  obtain ⟨a, rest, rfl⟩ : ∃ a rest, as = a :: rest := by
    cases as with
    | nil => exact absurd rfl has
    | cons a rest => exact ⟨a, rest, rfl⟩
  obtain ⟨as₀, t, hsnoc⟩ : ∃ as₀ t, a :: rest = as₀ ++ [t] := by
    obtain hnil | ⟨as₀, t, hs⟩ := (a :: rest).eq_nil_or_concat
    · exact absurd hnil (by simp)
    · exact ⟨as₀, t, by rw [hs, List.concat_eq_append]⟩
  constructor
  · obtain ⟨l', h1, h2⟩ := push_front_repr hr v
    refine ⟨l', h1, ?_, ?_⟩
    · rw [h2.2.2.1, hr.2.2.1, List.getLast?_cons_cons]
    · have hr2 := hr
      rw [hsnoc] at hr2
      have h2' : reprWith l' ((l.fresh :: as₀) ++ [t]) (v :: xs) := by
        rw [List.cons_append, ← hsnoc]
        exact h2
      obtain ⟨xb, hxb, hb⟩ := back_repr hr2
      obtain ⟨yb, hyb, hb'⟩ := back_repr h2'
      cases xs with
      | nil => simp at hxb
      | cons x0 xs0 =>
          rw [List.getLast?_cons_cons, hxb] at hyb
          obtain rfl : yb = xb := (Option.some.inj hyb).symm
          rw [hb, hb']
  · obtain ⟨l', h1, h2⟩ := push_back_repr hr v
    refine ⟨l', h1, ?_, ?_⟩
    · rw [h2.2.1, hr.2.1]
      exact head?_append_singleton (by simp)
    · obtain ⟨xf, hxf, hf⟩ := front_repr hr
      have h2' : reprWith l' (a :: (rest ++ [l.fresh])) (xs ++ [v]) := by
        rw [← List.cons_append]
        exact h2
      obtain ⟨yf, hyf, hf'⟩ := front_repr h2'
      cases xs with
      | nil => simp at hxf
      | cons x0 xs0 =>
          have hyf' : some x0 = some yf := hyf
          have hxf' : some x0 = some xf := hxf
          obtain rfl : x0 = yf := Option.some.inj hyf'
          obtain rfl : x0 = xf := Option.some.inj hxf'
          rw [hf, hf']

/-- Witness for C9 at a concrete one-element list. -/
theorem C9_push_frame_witness :
    (∃ l', push_front (⟨[(0, ⟨7, none, none⟩)], some 0, some 0, 1, 1⟩ :
        LinkedList Nat) 5 = some l' ∧
      l'.tail = (⟨[(0, ⟨7, none, none⟩)], some 0, some 0, 1, 1⟩ :
        LinkedList Nat).tail ∧
      back l' = back (⟨[(0, ⟨7, none, none⟩)], some 0, some 0, 1, 1⟩ :
        LinkedList Nat)) ∧
    (∃ l', push_back (⟨[(0, ⟨7, none, none⟩)], some 0, some 0, 1, 1⟩ :
        LinkedList Nat) 5 = some l' ∧
      l'.head = (⟨[(0, ⟨7, none, none⟩)], some 0, some 0, 1, 1⟩ :
        LinkedList Nat).head ∧
      front l' = front (⟨[(0, ⟨7, none, none⟩)], some 0, some 0, 1, 1⟩ :
        LinkedList Nat)) :=
  C9_push_frame ⟨[0], [7], by decide⟩ (by decide) 5

/-- C10: `clear()` is idempotent: calling it on an already-empty list
(including twice in a row) succeeds without error and leaves the list in
the valid empty state with `head` and `tail` null and `count` 0. -/
theorem C10_clear_idempotent {α : Type} {l : LinkedList α} (h : WFR l) :
    clear (clear l) = clear l ∧ (clear l).head = none ∧ (clear l).tail = none ∧
    (clear l).count = 0 ∧ WFR (clear l) := by
  obtain ⟨as, xs, hr⟩ := h
  exact ⟨clear_clear l, rfl, rfl, rfl, [], [], clear_repr hr.2.2.2.2.2.1⟩

/-- Witness for C10 at the empty list. -/
theorem C10_clear_idempotent_witness :
    clear (clear (emptyList : LinkedList Nat)) = clear (emptyList : LinkedList Nat) ∧
    (clear (emptyList : LinkedList Nat)).head = none ∧
    (clear (emptyList : LinkedList Nat)).tail = none ∧
    (clear (emptyList : LinkedList Nat)).count = 0 ∧
    WFR (clear (emptyList : LinkedList Nat)) :=
  C10_clear_idempotent ⟨[], [], emptyList_repr⟩

end LinkedList
